import Mathlib

/-!
Verification of the transcript post-processing and hallucination-filtering
pipeline of the wishperpro dictation utility.

The embedding models the cleanup chain of `transcribeAudio`
(src/electron/openai.ts, lines 88-138), the duplicated chain of
`transcribeAudioStream` (lines 223-269), the byte-size admission gate
(lines 46-52), and the duration gate of `stopRecording`
(src/src/components/Recorder.tsx, lines 442-457).

Strings are modelled as lists of Unicode code points.  Each JavaScript
regex replacement is translated into an executable function whose
semantics follow the ECMAScript regex engine: leftmost match, lazy or
greedy quantifiers as written, the dot metacharacter not matching line
terminators, and case-insensitive matching folding Basic Latin and
Latin-1 letters to lower case.
-/

namespace WhisperPro

/-- Conversion from a Lean string literal to the list-of-chars model. -/
def str (s : String) : List Char := s.data

/-- Line terminators, the characters that the ECMAScript dot does not match. -/
def isLineTerm (c : Char) : Bool :=
  c = '\n' || c = '\r' || c = '\u2028' || c = '\u2029'

/-- The ECMAScript whitespace class used by both the \s regex class and
String.prototype.trim (WhiteSpace plus LineTerminator). -/
def isJsWs (c : Char) : Bool :=
  c = ' ' || c = '\t' || c = '\n' || c = '\r' || c = '\x0b' || c = '\x0c' ||
  c = '\u00a0' || c = '\u1680' || (decide ('\u2000' ≤ c) && decide (c ≤ '\u200a')) ||
  c = '\u2028' || c = '\u2029' || c = '\u202f' || c = '\u205f' ||
  c = '\u3000' || c = '\ufeff'

/-- Case canonicalization used by the i regex flag: ASCII and Latin-1
uppercase letters are folded to lower case, everything else kept. -/
def jsFold (c : Char) : Char :=
  if decide ('A' ≤ c) && decide (c ≤ 'Z') then Char.ofNat (c.toNat + 32)
  else if decide ('À' ≤ c) && decide (c ≤ 'Þ') && decide (c ≠ '×') then
    Char.ofNat (c.toNat + 32)
  else c

/-- Case folding of a whole string. -/
def fold (s : List Char) : List Char := s.map jsFold

/-- Scanner for the global replacement of a lazily delimited span, such as
the bracket rule of the cleanup.  The buffer holds,
in reverse, the characters consumed since a still-unclosed opening
delimiter.  A closing delimiter drops the buffered span (the match is
removed); a line terminator makes the pending match impossible, so the
buffer is flushed verbatim; end of input likewise flushes. -/
def rdGo (opn close : Char) : Option (List Char) → List Char → List Char
  | none, [] => []
  | some buf, [] => buf.reverse
  | none, c :: r =>
    if c = opn then rdGo opn close (some [c]) r
    else c :: rdGo opn close none r
  | some buf, c :: r =>
    if c = close then rdGo opn close none r
    else if isLineTerm c then buf.reverse ++ c :: rdGo opn close none r
    else rdGo opn close (some (c :: buf)) r

/-- Global removal of a lazily matched delimited span. -/
def removeDelim (opn close : Char) (l : List Char) : List Char :=
  rdGo opn close none l

/-- Cleanup step 1: remove anything in square brackets. -/
def removeBrackets (l : List Char) : List Char := removeDelim '[' ']' l

/-- Cleanup step 2: remove anything in parentheses. -/
def removeParens (l : List Char) : List Char := removeDelim '(' ')' l

/-- Whether the next character exists and satisfies p, the one-character
lookahead of the run scanner. -/
def headP (p : Char → Bool) : List Char → Bool
  | [] => false
  | b :: _ => p b

/-- Scanner for the global replacement of a maximal run of two or more
characters satisfying p by the single character rep, as in the repeated
period and repeated whitespace collapses.  The flag
records that the scanner is inside an already-replaced run. -/
def crGo (p : Char → Bool) (rep : Char) : Bool → List Char → List Char
  | true, [] => []
  | false, [] => []
  | true, a :: r =>
    if p a then crGo p rep true r
    else a :: crGo p rep false r
  | false, a :: r =>
    if p a && headP p r then rep :: crGo p rep true r
    else a :: crGo p rep false r

/-- Global replacement of every run of two or more p-characters by rep. -/
def collapseRuns (p : Char → Bool) (rep : Char) (l : List Char) : List Char :=
  crGo p rep false l

/-- Cleanup step 3: replace multiple dots with a single dot. -/
def collapseDots (l : List Char) : List Char := collapseRuns (fun c => c = '.') '.' l

/-- Cleanup step 4: replace runs of two or more whitespace characters with
a single space. -/
def collapseWs (l : List Char) : List Char := collapseRuns isJsWs ' ' l

/-- Cleanup step 5: remove backslashes. -/
def removeBackslashes (l : List Char) : List Char := l.filter (fun c => c ≠ '\\')

/-- Number of leading ECMAScript-whitespace characters. -/
def leadingWsCount : List Char → Nat
  | [] => 0
  | c :: r => if isJsWs c then leadingWsCount r + 1 else 0

/-- All remainders obtainable by consuming one or more leading whitespace
characters (the regex piece matching one-or-more whitespace). -/
def consumeWsPlus (l : List Char) : List (List Char) :=
  (List.range (leadingWsCount l)).map (fun k => l.drop (k + 1))

/-- All remainders obtainable by consuming zero or more leading whitespace
characters. -/
def consumeWsStar (l : List Char) : List (List Char) :=
  l :: consumeWsPlus l

/-- Case-insensitive literal match at the front of the list; pat is given
already lower case.  Returns the remainder on success. -/
def matchCI (pat : List Char) (l : List Char) : Option (List Char) :=
  if (l.take pat.length).map jsFold = pat then some (l.drop pat.length) else none

/-- All remainders after the first filler alternative, the one with
flexible internal whitespace between its two fragments. -/
def consumeEAi : List Char → List (List Char)
  | [] => []
  | c :: r =>
    if jsFold c = 'e' then
      (consumeWsPlus r).filterMap (fun r2 => matchCI (str "ai") r2)
    else []

/-- All remainders after one hesitation filler word, the alternation
of the trailing-hesitation rule: the first alternative has flexible
internal whitespace, the rest are literals, all case-insensitive. -/
def consumeFiller (l : List Char) : List (List Char) :=
  consumeEAi l ++
  ([str "ai", str "eh", str "hm", str "mm", str "uh", str "ah", str "oh"].filterMap
    (fun w => matchCI w l))

/-- The remainder after a comma or period, when one is present. -/
def consumePunctOne : List Char → List (List Char)
  | [] => []
  | c :: r => if c = ',' || c = '.' then [r] else []

/-- All remainders after an optional comma or period. -/
def consumePunct (l : List Char) : List (List Char) :=
  l :: consumePunctOne l

/-- All remainders after one hesitation group: whitespace, a filler word,
optional whitespace, an optional comma or period, optional whitespace. -/
def hesGroup (l : List Char) : List (List Char) :=
  (consumeWsPlus l).flatMap (fun r1 =>
    (consumeFiller r1).flatMap (fun r2 =>
      (consumeWsStar r2).flatMap (fun r3 =>
        (consumePunct r3).flatMap consumeWsStar)))

/-- Fuelled decision of whether l parses completely as one or more
hesitation groups. -/
def parseSeqFuel : Nat → List Char → Bool
  | 0, _ => false
  | fuel + 1, l => (hesGroup l).any (fun r => r.isEmpty || parseSeqFuel fuel r)

/-- Whether l parses completely as one or more hesitation groups; every
group consumes at least one character, so fuel equal to the length
suffices. -/
def parseSeq (l : List Char) : Bool := parseSeqFuel l.length l

/-- First index at or after i, within the given fuel, satisfying p. -/
def findFirst (p : Nat → Bool) : Nat → Nat → Option Nat
  | 0, _ => none
  | fuel + 1, i => if p i then some i else findFirst p fuel (i + 1)

/-- Cleanup step 6: remove hesitation sounds at the end.  The match is
anchored at the end of the string, so the replacement truncates the string
at the leftmost position from which the rest parses as hesitation
groups. -/
def stripHes (s : List Char) : List Char :=
  match findFirst (fun i => parseSeq (s.drop i)) (s.length + 1) 0 with
  | some i => s.take i
  | none => s

/-- Whether some suffix of s parses as a hesitation-group sequence. -/
def hasHesSuffix (s : List Char) : Bool :=
  (findFirst (fun i => parseSeq (s.drop i)) (s.length + 1) 0).isSome

/-- Whether l starts a match of the legendas-artifact rule: one or more
whitespace characters, the literal word, one or more whitespace
characters, and a line-terminator-free tail reaching the end. -/
def legendasTail (l : List Char) : Bool :=
  (consumeWsPlus l).any (fun r1 =>
    match matchCI (str "legendas") r1 with
    | some r2 => (consumeWsPlus r2).any (fun r3 => r3.all (fun c => !isLineTerm c))
    | none => false)

/-- Cleanup step 7: remove legendas artifacts, truncating at the leftmost
match position. -/
def stripLegendas (s : List Char) : List Char :=
  match findFirst (fun i => legendasTail (s.drop i)) (s.length + 1) 0 with
  | some i => s.take i
  | none => s

/-- Whether l starts a match of the video-outro rule: whitespace, one of
the outro alternatives, and a line-terminator-free tail reaching the
end. -/
def outroTail (l : List Char) : Bool :=
  (consumeWsPlus l).any (fun r1 =>
    [str "obrigado", str "obrigada", str "obrigado por assistir", str "inscreva-se"].any
      (fun w =>
        match matchCI w r1 with
        | some r2 => r2.all (fun c => !isLineTerm c)
        | none => false))

/-- Cleanup step 8: remove common video outros, truncating at the leftmost
match position. -/
def stripOutro (s : List Char) : List Char :=
  match findFirst (fun i => outroTail (s.drop i)) (s.length + 1) 0 with
  | some i => s.take i
  | none => s

/-- Cleanup step 9: String.prototype.trim. -/
def jsTrim (s : List Char) : List Char :=
  ((s.dropWhile isJsWs).reverse.dropWhile isJsWs).reverse

/-- Membership in the terminal punctuation class of the final cleanup
step. -/
def isPunct (c : Char) : Bool := c = ',' || c = '.' || c = '!' || c = '?'

/-- Scanner for the final cleanup step, collapsing runs of an identical
punctuation character to a single copy.  The state remembers which
character is currently being deduplicated. -/
def cpGo : Option Char → List Char → List Char
  | _, [] => []
  | skip, a :: r =>
    if skip = some a then cpGo skip r
    else if isPunct a then a :: cpGo (some a) r
    else a :: cpGo none r

/-- Cleanup step 10 (applied after trim in the source): remove trailing
punctuation duplicates. -/
def collapsePunct (l : List Char) : List Char := cpGo none l

/-- The full cleanup pipeline of transcribeAudio, lines 89-102 of
src/electron/openai.ts, each replacement feeding the next. -/
def cleanup (s : List Char) : List Char :=
  collapsePunct (jsTrim (stripOutro (stripLegendas (stripHes
    (removeBackslashes (collapseWs (collapseDots (removeParens (removeBrackets s)))))))))

/-- Case-insensitive literal prefix test for the anchored-prefix
signatures. -/
def startsWithCI (pat : String) (s : List Char) : Bool :=
  (s.take pat.data.length).map jsFold = pat.data

/-- Case-insensitive whole-string test with an optional final period, the
shape shared by the first anchored signatures. -/
def exactOptDot (pats : List String) (s : List Char) : Bool :=
  pats.any (fun p => fold s = p.data || fold s = p.data ++ ['.'])

/-- Signature 1 of commonHallucinations, the student phrase. -/
def sigEstudante (s : List Char) : Bool :=
  exactOptDot ["eu sou estudante", "sou estudante"] s

/-- Signature 2, thanks. -/
def sigObrigado (s : List Char) : Bool :=
  exactOptDot ["obrigado", "obrigada"] s

/-- Signature 3, short greetings. -/
def sigGreeting (s : List Char) : Bool :=
  exactOptDot ["olá", "oi", "bom dia", "boa tarde", "boa noite"] s

/-- Signature 4, single affirmatives and negatives. -/
def sigYesNo (s : List Char) : Bool :=
  exactOptDot ["sim", "não", "ok", "certo"] s

/-- Signature 5, only whitespace and punctuation (the class holds
whitespace, period, comma and hyphen; the empty string matches). -/
def sigWsPunctOnly (s : List Char) : Bool :=
  s.all (fun c => isJsWs c || c = '.' || c = ',' || c = '-')

/-- Signature 6, a single ASCII letter with an optional period. -/
def sigSingleLetter (s : List Char) : Bool :=
  match s with
  | [c] => decide ('a' ≤ jsFold c) && decide (jsFold c ≤ 'z')
  | [c, d] => decide ('a' ≤ jsFold c) && decide (jsFold c ≤ 'z') && d = '.'
  | _ => false

/-- Signature 7, a single vowel or article with an optional period. -/
def sigVowelArticle (s : List Char) : Bool :=
  exactOptDot ["a", "e", "o", "i", "u", "é", "à"] s

/-- Signature 8, full prompt echo. -/
def sigPromptEcho (s : List Char) : Bool :=
  startsWithCI "transcrição em português" s

/-- Signature 9, partial prompt echo. -/
def sigPromptEchoShort (s : List Char) : Bool :=
  startsWithCI "transcrição" s

/-- Signature 10, what-is question openers. -/
def sigOQue (s : List Char) : Bool :=
  ["o que é", "o que são", "o que seria", "o que foi"].any
    (fun p => startsWithCI p s)

/-- Signature 11, other interrogative openers. -/
def sigInterrogative (s : List Char) : Bool :=
  ["como", "quando", "onde", "porque", "porquê"].any (fun w1 =>
    ["é", "são", "está", "estava"].any (fun w2 =>
      startsWithCI (w1 ++ " " ++ w2) s))

/-- Signature 12, which-is question openers. -/
def sigQual (s : List Char) : Bool :=
  ["qual é", "qual são", "qual foi", "qual seria"].any
    (fun p => startsWithCI p s)

/-- Signature 13, any text of at most twenty non-line-terminator
characters followed by a final question mark. -/
def sigShortQuestion (s : List Char) : Bool :=
  decide (s.length ≤ 21) && s.getLast? = some '?' &&
    s.dropLast.all (fun c => !isLineTerm c)

/-- The ordered hallucination-signature table of transcribeAudio,
lines 106-122 of src/electron/openai.ts. -/
def commonHallucinations : List (List Char → Bool) :=
  [sigEstudante, sigObrigado, sigGreeting, sigYesNo, sigWsPunctOnly,
   sigSingleLetter, sigVowelArticle, sigPromptEcho, sigPromptEchoShort,
   sigOQue, sigInterrogative, sigQual, sigShortQuestion]

/-- The for loop over the signature table, lines 124-129: signatures are
consulted top to bottom and the first match short-circuits. -/
def checkHallucinations : List (List Char → Bool) → List Char → Bool
  | [], _ => false
  | p :: ps, t => if p t then true else checkHallucinations ps t

/-- The sanitization block of transcribeAudio for a given signature table:
cleanup, the signature loop returning empty on a match, and the final
minimum-length check returning empty below two characters. -/
def sanitizeWith (sigs : List (List Char → Bool)) (raw : List Char) : List Char :=
  let cleanText := cleanup raw
  if checkHallucinations sigs cleanText then []
  else if cleanText.length < 2 then []
  else cleanText

/-- The sanitization applied by transcribeAudio, lines 88-138, with its
own signature table. -/
def sanitizeTranscript (raw : List Char) : List Char :=
  sanitizeWith commonHallucinations raw

/-- The cleanup chain duplicated inside transcribeAudioStream,
lines 224-235 of src/electron/openai.ts. -/
def cleanupStream (s : List Char) : List Char :=
  collapsePunct (jsTrim (stripOutro (stripLegendas (stripHes
    (removeBackslashes (collapseWs (collapseDots (removeParens (removeBrackets s)))))))))

/-- The signature table duplicated inside transcribeAudioStream,
lines 238-254. -/
def commonHallucinationsStream : List (List Char → Bool) :=
  [sigEstudante, sigObrigado, sigGreeting, sigYesNo, sigWsPunctOnly,
   sigSingleLetter, sigVowelArticle, sigPromptEcho, sigPromptEchoShort,
   sigOQue, sigInterrogative, sigQual, sigShortQuestion]

/-- The sanitization applied by transcribeAudioStream, lines 223-269:
the same cleanup chain, signature loop and minimum-length check as in
transcribeAudio, duplicated in the source. -/
def sanitizeTranscriptStream (raw : List Char) : List Char :=
  let cleanText := cleanupStream raw
  if checkHallucinations commonHallucinationsStream cleanText then []
  else if cleanText.length < 2 then []
  else cleanText

/-- The byte-size floor of the admission gate, line 49 of
src/electron/openai.ts. -/
def byteFloor : Nat := 1000

/-- Model of transcribeAudio after a successful recording: the byte-size
gate followed, on admission, by one provider call and the sanitization.
The second component counts calls made to the external transcription
provider. -/
def transcribeAudio (bufLen : Nat) (provider : Unit → List Char) :
    List Char × Nat :=
  if bufLen < byteFloor then ([], 0)
  else (sanitizeTranscript (provider ()), 1)

/-- Outcome of stopRecording in src/src/components/Recorder.tsx. -/
inductive StopOutcome : Type
  | noop : StopOutcome
  | cancelled : StopOutcome
  | processed : StopOutcome

/-- Model of stopRecording, lines 422-464 of Recorder.tsx: when a media
recorder exists and recording is active, a measured duration below 500 ms
cancels the recording and clears the accumulated chunks; otherwise the
recording proceeds to processing.  The second component is the byte size
of the chunks left for processing. -/
def stopRecording (hasRecorder isRecording : Bool) (durationMs chunkBytes : Nat) :
    StopOutcome × Nat :=
  if hasRecorder && isRecording then
    if durationMs < 500 then (StopOutcome.cancelled, 0)
    else (StopOutcome.processed, chunkBytes)
  else (StopOutcome.noop, chunkBytes)

/-- No occurrence of the character a is ever followed, anywhere later in
the list, by an occurrence of the character b.  When a and b are the
delimiters of a removal rule this means the rule can never fire. -/
def NoPair (a b : Char) : List Char → Prop
  | [] => True
  | c :: r => (c = a → b ∉ r) ∧ NoPair a b r

/-- Absence of line terminators, stated over list membership. -/
@[reducible] def NoLT (l : List Char) : Prop := ∀ c ∈ l, isLineTerm c = false

/-- No two adjacent characters both satisfy p: the run-collapse rule with
test p can never fire. -/
def NoAdj (p : Char → Bool) : List Char → Prop
  | [] => True
  | [_] => True
  | a :: b :: r => ¬(p a = true ∧ p b = true) ∧ NoAdj p (b :: r)

/-- No two adjacent identical characters from the terminal punctuation
class: the final cleanup step can never fire. -/
def NoDupPunct : List Char → Prop
  | [] => True
  | [_] => True
  | a :: b :: r => ¬(a = b ∧ isPunct a = true) ∧ NoDupPunct (b :: r)

/-- Whether pat occurs as a contiguous substring of l. -/
def containsSub (pat l : List Char) : Bool :=
  (List.range (l.length + 1)).any (fun i => (l.drop i).take pat.length = pat)

/-- The substrings whose absence from the folded cleaned text makes the
three trailing-artifact strips vacuous: the seven literal fillers, the
legendas word, the stem shared by the three thanks outros, and the
subscribe outro. -/
def triggerPats : List (List Char) :=
  [str "ai", str "eh", str "hm", str "mm", str "uh", str "ah", str "oh",
   str "legendas", str "obrigad", str "inscreva-se"]

/-- No trailing-artifact trigger occurs in the case-folded text. -/
def noTriggers (t : List Char) : Bool :=
  triggerPats.all (fun w => !containsSub w (fold t))

/-- The signature loop is the boolean disjunction over the table. -/
theorem checkHallucinations_eq_any (L : List (List Char → Bool)) (t : List Char) :
    checkHallucinations L t = L.any (fun p => p t) := by
  induction L with
  | nil => rfl
  | cons p ps ih =>
    simp only [checkHallucinations, List.any_cons, ih]
    by_cases h : p t <;> simp [h]

/-- A matching signature in the table makes the loop return true. -/
theorem checkHallucinations_of_mem {L : List (List Char → Bool)}
    {p : List Char → Bool} {t : List Char} (hmem : p ∈ L) (hp : p t = true) :
    checkHallucinations L t = true := by
  rw [checkHallucinations_eq_any]
  exact List.any_eq_true.mpr ⟨p, hmem, hp⟩

/-- When the loop returns false, every signature in the table is false. -/
theorem checkHallucinations_eq_false {L : List (List Char → Bool)}
    {t : List Char} (h : checkHallucinations L t = false) :
    ∀ p ∈ L, p t = false := by
  rw [checkHallucinations_eq_any] at h
  intro p hp
  cases hpt : p t with
  | false => rfl
  | true =>
    have hany : L.any (fun q => q t) = true :=
      List.any_eq_true.mpr ⟨p, hp, by simpa using hpt⟩
    rw [h] at hany
    exact absurd hany (by simp)

/-- C1.  A cleaned transcript matching any signature of the ordered table
makes the Sanitizer return the empty transcript; the concrete input
consisting solely of the thanks filler yields an empty final result; and
once a signature matches, the loop result does not depend on the
signatures listed after it. -/
theorem claim_C1 :
    (∀ raw : List Char,
      checkHallucinations commonHallucinations (cleanup raw) = true →
      sanitizeTranscript raw = []) ∧
    sanitizeTranscript (str "Obrigado.") = [] ∧
    (∀ (pre post post2 : List (List Char → Bool)) (p : List Char → Bool)
      (t : List Char), p t = true →
      checkHallucinations (pre ++ p :: post) t =
        checkHallucinations (pre ++ p :: post2) t) := by
  refine ⟨?_, by decide, ?_⟩
  · intro raw h
    simp [sanitizeTranscript, sanitizeWith, h]
  · intro pre post post2 p t hp
    induction pre with
    | nil => simp [checkHallucinations, hp]
    | cons q pre ih =>
      simp only [List.cons_append, checkHallucinations, List.append_eq]
      rw [ih]

/-- Witness for C1 at concrete inputs. -/
theorem claim_C1_witness :
    sanitizeTranscript (str "Olá") = [] ∧
    checkHallucinations ([] ++ sigObrigado :: []) (str "obrigado") =
      checkHallucinations ([] ++ sigObrigado :: [sigGreeting]) (str "obrigado") :=
  ⟨claim_C1.1 (str "Olá") (by decide),
   claim_C1.2.2 [] [] [sigGreeting] sigObrigado (str "obrigado") (by decide)⟩

/-- C3.  The byte-size admission gate has an exact boundary at the fixed
floor of 1000 bytes: at 999 bytes or fewer the function returns the empty
transcript without calling the provider; at 1000 bytes or more the clip
is forwarded to the provider exactly once and sanitized. -/
theorem claim_C3 (bufLen : Nat) (provider : Unit → List Char) :
    (bufLen ≤ 999 → transcribeAudio bufLen provider = ([], 0)) ∧
    (1000 ≤ bufLen →
      transcribeAudio bufLen provider = (sanitizeTranscript (provider ()), 1)) := by
  constructor
  · intro h
    have : bufLen < byteFloor := by simp only [byteFloor]; omega
    simp [transcribeAudio, this]
  · intro h
    have : ¬ bufLen < byteFloor := by simp only [byteFloor]; omega
    simp [transcribeAudio, this]

/-- Witness for C3 at the boundary. -/
theorem claim_C3_witness :
    transcribeAudio 999 (fun _ => str "ok") = ([], 0) ∧
    transcribeAudio 1000 (fun _ => str "ok") =
      (sanitizeTranscript ((fun _ : Unit => str "ok") ()), 1) :=
  ⟨(claim_C3 999 (fun _ => str "ok")).1 (by decide),
   (claim_C3 1000 (fun _ => str "ok")).2 (by decide)⟩

/-- C4.  The duration gate has an exact boundary at 500 ms: with an active
recorder, a measured duration of 499 ms or less cancels the recording and
clears the chunks regardless of their byte size, and a duration of 500 ms
or more proceeds to processing with the chunks intact. -/
theorem claim_C4 (durationMs chunkBytes : Nat) :
    (durationMs ≤ 499 →
      stopRecording true true durationMs chunkBytes = (StopOutcome.cancelled, 0)) ∧
    (500 ≤ durationMs →
      stopRecording true true durationMs chunkBytes =
        (StopOutcome.processed, chunkBytes)) := by
  constructor
  · intro h
    simp [stopRecording, Nat.lt_succ_of_le h]
  · intro h
    have : ¬ durationMs < 500 := by omega
    simp [stopRecording, this]

/-- Witness for C4 at the boundary. -/
theorem claim_C4_witness :
    stopRecording true true 499 123456 = (StopOutcome.cancelled, 0) ∧
    stopRecording true true 500 123456 = (StopOutcome.processed, 123456) :=
  ⟨(claim_C4 499 123456).1 (by decide), (claim_C4 500 123456).2 (by decide)⟩

/-- C5 counterexample.  The cleaned transcript of the raw input holding a
line feed is four characters long, ends in a question mark, yet the
Sanitizer returns it unchanged rather than empty: the short-question
signature requires the characters before the question mark to contain no
line terminator. -/
theorem claim_C5_counterexample :
    (cleanup (str "a\nb?")).length ≤ 21 ∧
    (cleanup (str "a\nb?")).getLast? = some '?' ∧
    sanitizeTranscript (str "a\nb?") ≠ [] := by
  refine ⟨by decide, by decide, by decide⟩

/-- C5 amended.  A cleaned transcript of at most 21 characters ending in a
question mark whose other characters contain no line terminator makes the
Sanitizer return the empty transcript; in particular the short Portuguese
question does. -/
theorem claim_C5 (raw : List Char)
    (hlen : (cleanup raw).length ≤ 21)
    (hq : (cleanup raw).getLast? = some '?')
    (hnl : (cleanup raw).dropLast.all (fun c => !isLineTerm c) = true) :
    sanitizeTranscript raw = [] := by
  have hsig : sigShortQuestion (cleanup raw) = true := by
    simp [sigShortQuestion, hlen, hq, hnl]
  have hmem : sigShortQuestion ∈ commonHallucinations := by
    simp [commonHallucinations]
  have hchk := checkHallucinations_of_mem hmem hsig
  simp [sanitizeTranscript, sanitizeWith, hchk]

/-- Witness for C5 at the concrete short question. -/
theorem claim_C5_witness : sanitizeTranscript (str "O que é isso?") = [] :=
  claim_C5 (str "O que é isso?") (by decide) (by decide) (by decide)

/-- C6.  Whatever the signature table, a cleaned transcript of fewer than
two characters makes the Sanitizer return the empty transcript, and the
lone letter yields an empty final result. -/
theorem claim_C6 :
    (∀ (sigs : List (List Char → Bool)) (raw : List Char),
      (cleanup raw).length < 2 → sanitizeWith sigs raw = []) ∧
    sanitizeTranscript (str "a") = [] := by
  constructor
  · intro sigs raw h
    simp [sanitizeWith, h]
  · decide

/-- Witness for C6 with the empty signature table, where only the length
check can reject. -/
theorem claim_C6_witness : sanitizeWith [] (str "x") = [] :=
  claim_C6.1 [] (str "x") (by decide)

/-- C7.  Bracketed and parenthetical annotations are removed before
whitespace is collapsed, so both concrete inputs clean to exactly the
two-word form with single internal spaces. -/
theorem claim_C7 :
    cleanup (str "Hello [music] world (laughs)") = str "Hello world" ∧
    cleanup (str "Hello   [noise]   world") = str "Hello world" := by
  exact ⟨by decide, by decide⟩

/-- The leading-whitespace count never exceeds the length. -/
theorem leadingWsCount_le_length (l : List Char) : leadingWsCount l ≤ l.length := by
  induction l with
  | nil => simp [leadingWsCount]
  | cons c r ih =>
    simp only [leadingWsCount, List.length_cons]
    split <;> omega

/-- Characterization of the whitespace-plus remainders. -/
theorem mem_consumeWsPlus {r l : List Char} (h : r ∈ consumeWsPlus l) :
    ∃ k, k < leadingWsCount l ∧ r = l.drop (k + 1) := by
  simp only [consumeWsPlus, List.mem_map, List.mem_range] at h
  obtain ⟨k, hk, rfl⟩ := h
  exact ⟨k, hk, rfl⟩

/-- A whitespace-plus remainder is strictly shorter. -/
theorem consumeWsPlus_length_lt {r l : List Char} (h : r ∈ consumeWsPlus l) :
    r.length < l.length := by
  obtain ⟨k, hk, rfl⟩ := mem_consumeWsPlus h
  have h1 : k + 1 ≤ leadingWsCount l := hk
  have h2 := leadingWsCount_le_length l
  simp only [List.length_drop]
  omega

/-- A whitespace-plus remainder exists only for nonempty input. -/
theorem mem_consumeWsPlus_ne_nil {r l : List Char} (h : r ∈ consumeWsPlus l) :
    l ≠ [] := by
  intro he
  subst he
  simp [consumeWsPlus, leadingWsCount] at h

/-- Characterization of a successful case-insensitive literal match. -/
theorem matchCI_eq_some {pat l r : List Char} (h : matchCI pat l = some r) :
    (l.take pat.length).map jsFold = pat ∧ r = l.drop pat.length ∧
      pat.length ≤ l.length := by
  simp only [matchCI] at h
  split at h
  · rename_i hc
    cases h
    refine ⟨hc, rfl, ?_⟩
    have := congrArg List.length hc
    simp only [List.length_map, List.length_take] at this
    omega
  · cases h

/-- A nonempty literal match leaves a strictly shorter remainder. -/
theorem matchCI_length_lt {pat l r : List Char} (hne : pat ≠ [])
    (h : matchCI pat l = some r) : r.length < l.length := by
  obtain ⟨-, rfl, hle⟩ := matchCI_eq_some h
  have : 0 < pat.length := List.length_pos.mpr hne
  simp only [List.length_drop]
  omega

/-- A filler-word remainder is strictly shorter. -/
theorem consumeFiller_length_lt {r l : List Char} (h : r ∈ consumeFiller l) :
    r.length < l.length := by
  simp only [consumeFiller, List.mem_append] at h
  rcases h with h | h
  · cases l with
    | nil => simp [consumeEAi] at h
    | cons c r0 =>
      simp only [consumeEAi] at h
      split at h
      · simp only [List.mem_filterMap] at h
        obtain ⟨r2, hr2, hm⟩ := h
        have h1 := consumeWsPlus_length_lt hr2
        have h2 := matchCI_length_lt (by simp [str]) hm
        simp only [List.length_cons]
        omega
      · simp at h
  · simp only [List.mem_filterMap] at h
    obtain ⟨w, hw, hm⟩ := h
    have hne : w ≠ [] := by
      fin_cases hw <;> simp [str]
    exact matchCI_length_lt hne hm

/-- A whitespace-star remainder is at most as long. -/
theorem consumeWsStar_length_le {r l : List Char} (h : r ∈ consumeWsStar l) :
    r.length ≤ l.length := by
  simp only [consumeWsStar, List.mem_cons] at h
  rcases h with rfl | h
  · exact Nat.le_refl _
  · exact Nat.le_of_lt (consumeWsPlus_length_lt h)

/-- An optional-punctuation remainder is at most as long. -/
theorem consumePunct_length_le {r l : List Char} (h : r ∈ consumePunct l) :
    r.length ≤ l.length := by
  simp only [consumePunct, List.mem_cons] at h
  rcases h with rfl | h
  · exact Nat.le_refl _
  · cases l with
    | nil => simp [consumePunctOne] at h
    | cons c r0 =>
      simp only [consumePunctOne] at h
      split at h <;> simp_all

/-- A hesitation-group remainder is strictly shorter. -/
theorem hesGroup_length_lt {r l : List Char} (h : r ∈ hesGroup l) :
    r.length < l.length := by
  simp only [hesGroup, List.mem_flatMap] at h
  obtain ⟨r1, hr1, r2, hr2, r3, hr3, r4, hr4, hr⟩ := h
  have h1 := consumeWsPlus_length_lt hr1
  have h2 := consumeFiller_length_lt hr2
  have h3 := consumeWsStar_length_le hr3
  have h4 := consumePunct_length_le hr4
  have h5 := consumeWsStar_length_le hr
  omega

/-- A hesitation group exists only on nonempty input. -/
theorem hesGroup_ne_nil {r l : List Char} (h : r ∈ hesGroup l) : l ≠ [] := by
  simp only [hesGroup, List.mem_flatMap] at h
  obtain ⟨r1, hr1, -⟩ := h
  exact mem_consumeWsPlus_ne_nil hr1

/-- Parsing succeeds with any larger fuel. -/
theorem parseSeqFuel_mono : ∀ {f g : Nat} {l : List Char}, f ≤ g →
    parseSeqFuel f l = true → parseSeqFuel g l = true := by
  intro f
  induction f with
  | zero => intro g l _ h; simp [parseSeqFuel] at h
  | succ f ih =>
    intro g l hfg h
    obtain ⟨g, rfl⟩ : ∃ g2, g = g2 + 1 := ⟨g - 1, by omega⟩
    simp only [parseSeqFuel, List.any_eq_true] at h ⊢
    obtain ⟨r, hr, hd⟩ := h
    refine ⟨r, hr, ?_⟩
    rcases Bool.or_eq_true _ _ ▸ hd with he | hp
    · exact Bool.or_eq_true _ _ ▸ Or.inl he
    · exact Bool.or_eq_true _ _ ▸ Or.inr (ih (by omega) hp)

/-- The empty string does not parse as a hesitation sequence. -/
theorem parseSeq_nil : parseSeq [] = false := rfl

/-- A parsed hesitation sequence is nonempty. -/
theorem parseSeq_ne_nil {l : List Char} (h : parseSeq l = true) : l ≠ [] := by
  intro he
  subst he
  simp [parseSeq_nil] at h

/-- Fuel equal to the length is always enough: success with any fuel
implies success of the fuelled parser at its canonical fuel. -/
theorem parseSeq_of_fuel : ∀ {f : Nat} {l : List Char},
    parseSeqFuel f l = true → parseSeq l = true := by
  intro f
  induction f with
  | zero => intro l h; simp [parseSeqFuel] at h
  | succ f ih =>
    intro l h
    simp only [parseSeqFuel, List.any_eq_true] at h
    obtain ⟨r, hr, hd⟩ := h
    have hlt := hesGroup_length_lt hr
    have hne : l ≠ [] := hesGroup_ne_nil hr
    obtain ⟨m, hm⟩ : ∃ m, l.length = m + 1 := by
      cases l with
      | nil => exact absurd rfl hne
      | cons a b => exact ⟨b.length, rfl⟩
    have : parseSeqFuel (m + 1) l = true := by
      simp only [parseSeqFuel, List.any_eq_true]
      refine ⟨r, hr, ?_⟩
      rcases Bool.or_eq_true _ _ ▸ hd with he | hp
      · exact Bool.or_eq_true _ _ ▸ Or.inl he
      · have := ih hp
        exact Bool.or_eq_true _ _ ▸ Or.inr
          (parseSeqFuel_mono (by omega) this)
    simpa [parseSeq, hm] using this

/-- Appending does not decrease the leading-whitespace count. -/
theorem leadingWsCount_le_append (u v : List Char) :
    leadingWsCount u ≤ leadingWsCount (u ++ v) := by
  induction u with
  | nil => simp [leadingWsCount]
  | cons c r ih =>
    simp only [List.cons_append, leadingWsCount, List.append_eq]
    split <;> omega

/-- Whitespace-plus remainders extend along an appended tail. -/
theorem consumeWsPlus_append {r u : List Char} (v : List Char)
    (h : r ∈ consumeWsPlus u) : r ++ v ∈ consumeWsPlus (u ++ v) := by
  obtain ⟨k, hk, rfl⟩ := mem_consumeWsPlus h
  have h1 : k + 1 ≤ u.length := le_trans hk (leadingWsCount_le_length u)
  simp only [consumeWsPlus, List.mem_map, List.mem_range]
  refine ⟨k, lt_of_lt_of_le hk (leadingWsCount_le_append u v), ?_⟩
  rw [List.drop_append_of_le_length h1]

/-- Whitespace-star remainders extend along an appended tail. -/
theorem consumeWsStar_append {r u : List Char} (v : List Char)
    (h : r ∈ consumeWsStar u) : r ++ v ∈ consumeWsStar (u ++ v) := by
  simp only [consumeWsStar, List.mem_cons] at h ⊢
  rcases h with rfl | h
  · exact Or.inl rfl
  · exact Or.inr (consumeWsPlus_append v h)

/-- Literal matches extend along an appended tail. -/
theorem matchCI_append {pat u r : List Char} (v : List Char)
    (h : matchCI pat u = some r) : matchCI pat (u ++ v) = some (r ++ v) := by
  obtain ⟨hfold, rfl, hle⟩ := matchCI_eq_some h
  simp only [matchCI, List.take_append_of_le_length hle, hfold, if_pos,
    List.drop_append_of_le_length hle]

/-- Filler remainders extend along an appended tail. -/
theorem consumeFiller_append {r u : List Char} (v : List Char)
    (h : r ∈ consumeFiller u) : r ++ v ∈ consumeFiller (u ++ v) := by
  simp only [consumeFiller, List.mem_append] at h ⊢
  rcases h with h | h
  · left
    cases u with
    | nil => simp [consumeEAi] at h
    | cons c r0 =>
      simp only [consumeEAi] at h ⊢
      split at h
      · rename_i he
        rw [List.cons_append]
        simp only [consumeEAi]
        rw [if_pos he]
        simp only [List.mem_filterMap] at h ⊢
        obtain ⟨r2, hr2, hm⟩ := h
        exact ⟨r2 ++ v, consumeWsPlus_append v hr2, matchCI_append v hm⟩
      · simp at h
  · right
    simp only [List.mem_filterMap] at h ⊢
    obtain ⟨w, hw, hm⟩ := h
    exact ⟨w, hw, matchCI_append v hm⟩

/-- Optional-punctuation remainders extend along an appended tail. -/
theorem consumePunct_append {r u : List Char} (v : List Char)
    (h : r ∈ consumePunct u) : r ++ v ∈ consumePunct (u ++ v) := by
  simp only [consumePunct, List.mem_cons] at h ⊢
  rcases h with rfl | h
  · exact Or.inl rfl
  · right
    cases u with
    | nil => simp [consumePunctOne] at h
    | cons c r0 =>
      simp only [consumePunctOne] at h
      split at h
      · rename_i hc
        simp only [List.mem_singleton] at h
        subst h
        rw [List.cons_append, consumePunctOne, if_pos hc]
        simp
      · simp at h

/-- Hesitation-group remainders extend along an appended tail. -/
theorem hesGroup_append {r u : List Char} (v : List Char)
    (h : r ∈ hesGroup u) : r ++ v ∈ hesGroup (u ++ v) := by
  simp only [hesGroup, List.mem_flatMap] at h ⊢
  obtain ⟨r1, hr1, r2, hr2, r3, hr3, r4, hr4, hr⟩ := h
  exact ⟨r1 ++ v, consumeWsPlus_append v hr1,
         r2 ++ v, consumeFiller_append v hr2,
         r3 ++ v, consumeWsStar_append v hr3,
         r4 ++ v, consumePunct_append v hr4,
         consumeWsStar_append v hr⟩

/-- Two hesitation-sequence parses concatenate to one parse: the groups
of the first are followed by the groups of the second. -/
theorem parseSeq_append : ∀ {f : Nat} {u v : List Char},
    parseSeqFuel f u = true → parseSeq v = true → parseSeq (u ++ v) = true := by
  intro f
  induction f with
  | zero => intro u v h _; simp [parseSeqFuel] at h
  | succ f ih =>
    intro u v h hv
    simp only [parseSeqFuel, List.any_eq_true] at h
    obtain ⟨r, hr, hd⟩ := h
    have hune : u ≠ [] := hesGroup_ne_nil hr
    have huv : r ++ v ∈ hesGroup (u ++ v) := hesGroup_append v hr
    have hulen : 1 ≤ u.length := by
      cases u with
      | nil => exact absurd rfl hune
      | cons a b => simp
    obtain ⟨m, hm⟩ : ∃ m, (u ++ v).length = m + 1 := by
      refine ⟨(u ++ v).length - 1, ?_⟩
      simp only [List.length_append]
      omega
    have hrlt := hesGroup_length_lt hr
    have key : parseSeqFuel (m + 1) (u ++ v) = true := by
      simp only [parseSeqFuel, List.any_eq_true]
      refine ⟨r ++ v, huv, ?_⟩
      rcases Bool.or_eq_true _ _ ▸ hd with he | hp
      · have hre : r = [] := List.isEmpty_iff.mp he
        subst hre
        simp only [List.nil_append]
        have hvlen : v.length ≤ m := by
          simp only [List.length_append] at hm
          omega
        exact Bool.or_eq_true _ _ ▸ Or.inr (parseSeqFuel_mono hvlen hv)
      · have hpar : parseSeq (r ++ v) = true := ih hp hv
        have hlen : (r ++ v).length ≤ m := by
          simp only [List.length_append] at hm ⊢
          omega
        exact Bool.or_eq_true _ _ ▸ Or.inr
          (parseSeqFuel_mono hlen hpar)
    rw [parseSeq, hm]
    exact key

/-- Success of the bounded first-index search: the found index satisfies
the test and every earlier index fails it. -/
theorem findFirst_eq_some {p : Nat → Bool} : ∀ {f i j : Nat},
    findFirst p f i = some j →
    p j = true ∧ i ≤ j ∧ ∀ k, i ≤ k → k < j → p k = false := by
  intro f
  induction f with
  | zero => intro i j h; simp [findFirst] at h
  | succ f ih =>
    intro i j h
    simp only [findFirst] at h
    by_cases hp : p i
    · rw [if_pos hp] at h
      cases h
      exact ⟨hp, Nat.le_refl _, fun k h1 h2 => absurd h2 (by omega)⟩
    · rw [if_neg hp] at h
      obtain ⟨hj, hij, hmin⟩ := ih h
      refine ⟨hj, by omega, fun k h1 h2 => ?_⟩
      by_cases hk : k = i
      · subst hk
        exact Bool.not_eq_true _ ▸ hp
      · exact hmin k (by omega) h2

/-- Failure of the bounded first-index search: every index in range fails
the test. -/
theorem findFirst_eq_none {p : Nat → Bool} : ∀ {f i : Nat},
    findFirst p f i = none → ∀ k, i ≤ k → k < i + f → p k = false := by
  intro f
  induction f with
  | zero => intro i _ k h1 h2; omega
  | succ f ih =>
    intro i h k h1 h2
    simp only [findFirst] at h
    by_cases hp : p i
    · rw [if_pos hp] at h; cases h
    · rw [if_neg hp] at h
      by_cases hk : k = i
      · subst hk
        exact Bool.not_eq_true _ ▸ hp
      · exact ih h k (by omega) (by omega)

/-- The bounded first-index search fails when the test never holds. -/
theorem findFirst_of_all_false {p : Nat → Bool} (hall : ∀ k, p k = false) :
    ∀ (f i : Nat), findFirst p f i = none := by
  intro f
  induction f with
  | zero => intro i; rfl
  | succ f ih =>
    intro i
    simp only [findFirst, hall i, Bool.false_eq_true, if_false]
    exact ih (i + 1)

/-- Dropping within a prefix and appending the matching suffix recovers
the drop on the whole list. -/
theorem take_drop_append {u : List Char} {k j : Nat} (hk : k ≤ j) :
    (u.take j).drop k ++ u.drop j = u.drop k := by
  rw [List.drop_take]
  have h1 : u.drop j = (u.drop k).drop (j - k) := by
    rw [List.drop_drop]
    congr 1
    omega
  rw [h1, List.take_append_drop]

/-- C8 counterexample.  The word um is not among the hesitation fillers of
the source regex, so a transcript ending in it is not stripped: neither
the trailing-hesitation step nor the full cleanup changes it. -/
theorem claim_C8_counterexample :
    stripHes (str "foo um") = str "foo um" ∧
    cleanup (str "foo um") = str "foo um" := by
  exact ⟨by decide, by decide⟩

/-- C8 amended.  The trailing-hesitation step removes, anchored at the end
of the string only, the maximal trailing sequence of groups made of
whitespace, one of the fillers of the source list (the two-fragment
filler with flexible internal whitespace, or one of the seven literal
fillers, case-insensitive), optional whitespace, an optional comma or
period, and optional whitespace: when such a suffix exists the result is
the prefix before its leftmost start, what was removed parses as such a
sequence, and no such suffix remains; strings with no such trailing
sequence, in particular ones with the same fillers only in the middle,
are unchanged. -/
theorem claim_C8 :
    (∀ u : List Char, hasHesSuffix u = true →
      ∃ i, i < u.length ∧ stripHes u = u.take i ∧ parseSeq (u.drop i) = true ∧
        hasHesSuffix (u.take i) = false) ∧
    (∀ u : List Char, hasHesSuffix u = false → stripHes u = u) ∧
    stripHes (str "uh oh test uh ah") = str "uh oh test" := by
  refine ⟨?_, ?_, by decide⟩
  · intro u h
    rw [hasHesSuffix] at h
    obtain ⟨j, hj⟩ := Option.isSome_iff_exists.mp h
    obtain ⟨hpj, -, hmin⟩ := findFirst_eq_some hj
    have hne := parseSeq_ne_nil hpj
    have hjlt : j < u.length := by
      by_contra hge
      exact hne (List.drop_eq_nil_iff.mpr (by omega))
    refine ⟨j, hjlt, ?_, hpj, ?_⟩
    · rw [stripHes, hj]
    · have hall : ∀ k, parseSeq ((u.take j).drop k) = false := by
        intro k
        by_cases hk : k < j
        · cases hpk : parseSeq ((u.take j).drop k) with
          | false => rfl
          | true =>
            exfalso
            have hsplit := take_drop_append (u := u) (le_of_lt hk)
            have : parseSeq (u.drop k) = true := by
              rw [← hsplit]
              exact parseSeq_append hpk hpj
            rw [hmin k (Nat.zero_le k) hk] at this
            cases this
        · have : (u.take j).drop k = [] := by
            rw [List.drop_eq_nil_iff, List.length_take]
            omega
          rw [this]
          exact parseSeq_nil
      rw [hasHesSuffix, findFirst_of_all_false hall]
      rfl
  · intro u h
    rw [hasHesSuffix] at h
    rw [stripHes]
    cases hf : findFirst (fun i => parseSeq (u.drop i)) (u.length + 1) 0 with
    | none => rfl
    | some j => rw [hf] at h; cases h

/-- Witness for C8 at a concrete string with a trailing filler. -/
theorem claim_C8_witness :
    ∃ i, i < (str "bom dia uh.").length ∧
      stripHes (str "bom dia uh.") = (str "bom dia uh.").take i ∧
      parseSeq ((str "bom dia uh.").drop i) = true ∧
      hasHesSuffix ((str "bom dia uh.").take i) = false :=
  claim_C8.1 (str "bom dia uh.") (by decide)

/-- The dropWhile function drops exactly the takeWhile length. -/
theorem dropWhile_eq_drop (p : Char → Bool) (l : List Char) :
    l.dropWhile p = l.drop (l.takeWhile p).length := by
  induction l with
  | nil => rfl
  | cons a r ih =>
    by_cases hp : p a
    · simp [List.dropWhile_cons_of_pos hp, List.takeWhile_cons_of_pos hp, ih]
    · simp [List.dropWhile_cons_of_neg hp, List.takeWhile_cons_of_neg hp]

/-- The head left by dropWhile fails the test. -/
theorem dropWhile_head_not {p : Char → Bool} {l : List Char} {c : Char}
    (h : (l.dropWhile p).head? = some c) : p c = false := by
  induction l with
  | nil => cases h
  | cons a r ih =>
    by_cases hp : p a
    · rw [List.dropWhile_cons_of_pos hp] at h
      exact ih h
    · rw [List.dropWhile_cons_of_neg hp] at h
      cases h
      exact Bool.not_eq_true _ ▸ hp

/-- A list whose head fails the test is untouched by dropWhile. -/
theorem dropWhile_eq_self {p : Char → Bool} {l : List Char}
    (h : ∀ c, l.head? = some c → p c = false) : l.dropWhile p = l := by
  cases l with
  | nil => rfl
  | cons a r =>
    exact List.dropWhile_cons_of_neg (by simp [h a rfl])

/-- The trim result is a prefix of the leading-whitespace drop. -/
theorem jsTrim_eq_take (l : List Char) :
    ∃ m, jsTrim l = (l.dropWhile isJsWs).take m := by
  refine ⟨(l.dropWhile isJsWs).length -
    ((l.dropWhile isJsWs).reverse.takeWhile isJsWs).length, ?_⟩
  rw [jsTrim, dropWhile_eq_drop isJsWs ((l.dropWhile isJsWs).reverse),
    List.drop_reverse, List.reverse_reverse]

/-- The first character of a trimmed string is not whitespace. -/
theorem jsTrim_head_not {l : List Char} {c : Char}
    (h : (jsTrim l).head? = some c) : isJsWs c = false := by
  obtain ⟨m, hm⟩ := jsTrim_eq_take l
  rw [hm, List.head?_take] at h
  split at h
  · cases h
  · exact dropWhile_head_not h

/-- The last character of a trimmed string is not whitespace. -/
theorem jsTrim_last_not {l : List Char} {c : Char}
    (h : (jsTrim l).getLast? = some c) : isJsWs c = false := by
  rw [jsTrim, List.getLast?_reverse] at h
  exact dropWhile_head_not h

/-- A string whose two ends are not whitespace is untouched by trim. -/
theorem jsTrim_eq_self {l : List Char}
    (hh : ∀ c, l.head? = some c → isJsWs c = false)
    (hl : ∀ c, l.getLast? = some c → isJsWs c = false) : jsTrim l = l := by
  rw [jsTrim, dropWhile_eq_self hh, dropWhile_eq_self
    (fun c hc => hl c (List.head?_reverse l ▸ hc)), List.reverse_reverse]

/-- Unfolding of the punctuation scanner in fresh state. -/
theorem cpGo_none_cons (a : Char) (r : List Char) :
    cpGo none (a :: r) =
      if isPunct a then a :: cpGo (some a) r else a :: cpGo none r := by
  simp [cpGo]

/-- The punctuation collapse keeps the first character. -/
theorem collapsePunct_head (l : List Char) :
    (collapsePunct l).head? = l.head? := by
  cases l with
  | nil => rfl
  | cons a r =>
    rw [collapsePunct, cpGo_none_cons]
    split <;> rfl

/-- Helper for last-character preservation through a cons. -/
theorem getLast?_cons_congr {a : Char} {m r : List Char}
    (hne : r = [] → m = []) (h : m.getLast? = r.getLast?) :
    (a :: m).getLast? = (a :: r).getLast? := by
  cases r with
  | nil => rw [hne rfl]
  | cons b r2 =>
    cases m with
    | nil => cases h
    | cons b2 m2 => rw [List.getLast?_cons_cons, List.getLast?_cons_cons, h]

/-- The punctuation scanner never empties a nonempty fresh input. -/
theorem cpGo_none_ne_nil {l : List Char} (h : l ≠ []) : cpGo none l ≠ [] := by
  cases l with
  | nil => exact absurd rfl h
  | cons a r =>
    rw [cpGo_none_cons]
    split <;> simp

/-- The punctuation collapse keeps the last character. -/
theorem cpGo_getLast (l : List Char) :
    (∀ c, (c :: cpGo (some c) l).getLast? = (c :: l).getLast?) ∧
      (cpGo none l).getLast? = l.getLast? := by
  induction l with
  | nil => exact ⟨fun c => rfl, rfl⟩
  | cons a r ih =>
    constructor
    · intro c
      by_cases hca : c = a
      · subst hca
        have hstep : cpGo (some c) (c :: r) = cpGo (some c) r := by
          simp [cpGo]
        rw [hstep, List.getLast?_cons_cons]
        exact ih.1 c
      · have hstep : cpGo (some c) (a :: r) =
            if isPunct a then a :: cpGo (some a) r else a :: cpGo none r := by
          simp [cpGo, hca]
        rw [hstep]
        split
        · rw [List.getLast?_cons_cons, List.getLast?_cons_cons]
          exact ih.1 a
        · rw [List.getLast?_cons_cons, List.getLast?_cons_cons]
          refine getLast?_cons_congr (fun hr => ?_) ih.2
          subst hr
          rfl
    · rw [cpGo_none_cons]
      split
      · exact ih.1 a
      · refine getLast?_cons_congr (fun hr => ?_) ih.2
        subst hr
        rfl

/-- The punctuation collapse keeps the last character. -/
theorem collapsePunct_getLast (l : List Char) :
    (collapsePunct l).getLast? = l.getLast? := (cpGo_getLast l).2

/-- Every cleaned transcript is already trimmed: trim is the next-to-last
cleanup step and the final punctuation collapse keeps both ends. -/
theorem cleanup_trimmed (s : List Char) : jsTrim (cleanup s) = cleanup s := by
  rw [cleanup]
  apply jsTrim_eq_self
  · intro c hc
    rw [collapsePunct_head] at hc
    exact jsTrim_head_not hc
  · intro c hc
    rw [collapsePunct_getLast] at hc
    exact jsTrim_last_not hc

/-- C10.  Every transcript returned by the Sanitizer is either empty or in
normal form: at least two characters, equal to its own trim, and matching
none of the hallucination signatures. -/
theorem claim_C10 (raw : List Char) :
    sanitizeTranscript raw = [] ∨
      (2 ≤ (sanitizeTranscript raw).length ∧
       jsTrim (sanitizeTranscript raw) = sanitizeTranscript raw ∧
       ∀ p ∈ commonHallucinations, p (sanitizeTranscript raw) = false) := by
  by_cases h1 : checkHallucinations commonHallucinations (cleanup raw) = true
  · left
    simp [sanitizeTranscript, sanitizeWith, h1]
  · by_cases h2 : (cleanup raw).length < 2
    · left
      simp [sanitizeTranscript, sanitizeWith, h2]
    · right
      have hres : sanitizeTranscript raw = cleanup raw := by
        simp [sanitizeTranscript, sanitizeWith, h1, h2]
      rw [hres]
      refine ⟨by omega, cleanup_trimmed raw, ?_⟩
      exact checkHallucinations_eq_false (Bool.not_eq_true _ ▸ h1)

/-- The pair-freedom of the tail. -/
theorem noPair_tail {a b c : Char} {r : List Char} (h : NoPair a b (c :: r)) :
    NoPair a b r := h.2

/-- A list not containing the closing delimiter is pair-free. -/
theorem NoPair_of_not_mem {a b : Char} {l : List Char} (h : b ∉ l) :
    NoPair a b l := by
  induction l with
  | nil => trivial
  | cons c r ih =>
    refine ⟨fun _ => fun hb => h (List.mem_cons_of_mem c hb), ih ?_⟩
    intro hb
    exact h (List.mem_cons_of_mem c hb)

/-- Pair-freedom restricts along sublists. -/
theorem noPair_sublist {a b : Char} : ∀ {l1 l2 : List Char},
    List.Sublist l1 l2 → NoPair a b l2 → NoPair a b l1 := by
  intro l1 l2 hsub
  induction hsub with
  | slnil => intro h; trivial
  | cons c _ ih => intro h; exact ih h.2
  | cons₂ c hsub2 ih =>
    intro h
    exact ⟨fun hc => fun hb => h.1 hc (hsub2.mem hb), ih h.2⟩

/-- The delimiter scanner is the identity on pair-free input. -/
theorem rdGo_id {a b : Char} : ∀ l : List Char, NoPair a b l →
    rdGo a b none l = l ∧
    (∀ buf, b ∉ l → rdGo a b (some buf) l = buf.reverse ++ l) := by
  intro l
  induction l with
  | nil => exact fun _ => ⟨rfl, fun buf _ => by simp [rdGo]⟩
  | cons c r ih =>
    intro h
    constructor
    · by_cases hc : c = a
      · rw [rdGo, if_pos hc]
        rw [(ih h.2).2 [c] (h.1 hc)]
        rfl
      · rw [rdGo, if_neg hc, (ih h.2).1]
    · intro buf hb
      have hcb : ¬ c = b := fun he => hb (he ▸ List.mem_cons_self c r)
      have hbr : b ∉ r := fun hm => hb (List.mem_cons_of_mem c hm)
      rw [rdGo, if_neg hcb]
      by_cases hlt : isLineTerm c = true
      · rw [if_pos hlt, (ih h.2).1]
      · rw [if_neg hlt, (ih h.2).2 (c :: buf) hbr]
        simp

/-- Characters of the scanner output come from the buffer or the input. -/
theorem rdGo_mem {a b : Char} : ∀ (l : List Char) (c : Char),
    (c ∈ rdGo a b none l → c ∈ l) ∧
    (∀ buf, c ∈ rdGo a b (some buf) l → c ∈ buf ∨ c ∈ l) := by
  intro l
  induction l with
  | nil =>
    intro c
    refine ⟨fun h => by simp [rdGo] at h, fun buf h => ?_⟩
    rw [rdGo] at h
    exact Or.inl (List.mem_reverse.mp h)
  | cons d r ih =>
    intro c
    constructor
    · intro h
      rw [rdGo] at h
      split at h
      · rcases (ih c).2 [d] h with hb | hr
        · simp at hb
          simp [hb]
        · exact List.mem_cons_of_mem d hr
      · rcases List.mem_cons.mp h with rfl | hr
        · exact List.mem_cons_self _ _
        · exact List.mem_cons_of_mem d ((ih c).1 hr)
    · intro buf h
      rw [rdGo] at h
      split at h
      · exact Or.inr (List.mem_cons_of_mem d ((ih c).1 h))
      · split at h
        · rcases List.mem_append.mp h with hb | hr
          · exact Or.inl (List.mem_reverse.mp hb)
          · rcases List.mem_cons.mp hr with rfl | hr2
            · exact Or.inr (List.mem_cons_self _ _)
            · exact Or.inr (List.mem_cons_of_mem d ((ih c).1 hr2))
        · rcases (ih c).2 (d :: buf) h with hb | hr
          · rcases List.mem_cons.mp hb with rfl | hb2
            · exact Or.inr (List.mem_cons_self _ _)
            · exact Or.inl hb2
          · exact Or.inr (List.mem_cons_of_mem d hr)

/-- The scanner output is a sublist of buffer-reverse plus input. -/
theorem rdGo_sublist {a b : Char} : ∀ l : List Char,
    List.Sublist (rdGo a b none l) l ∧
    (∀ buf, List.Sublist (rdGo a b (some buf) l) (buf.reverse ++ l)) := by
  intro l
  induction l with
  | nil =>
    refine ⟨List.Sublist.refl _, fun buf => ?_⟩
    rw [rdGo, List.append_nil]
  | cons c r ih =>
    constructor
    · by_cases hc : c = a
      · rw [rdGo, if_pos hc]
        have h2 := ih.2 [c]
        simpa using h2
      · rw [rdGo, if_neg hc]
        exact ih.1.cons₂ c
    · intro buf
      rw [rdGo]
      by_cases hcb : c = b
      · rw [if_pos hcb]
        exact ih.1.trans ((List.sublist_cons_self c r).trans
          (List.sublist_append_right _ _))
      · rw [if_neg hcb]
        by_cases hlt : isLineTerm c = true
        · rw [if_pos hlt]
          exact (ih.1.cons₂ c).append_left buf.reverse
        · rw [if_neg hlt]
          have h2 := ih.2 (c :: buf)
          simpa using h2

/-- Under line-terminator-free input the scanner leaves no delimiter pair:
an opening delimiter survives only when no closing one follows. -/
theorem rdGo_noPair {a b : Char} (hab : a ≠ b) : ∀ l : List Char, NoLT l →
    NoPair a b (rdGo a b none l) ∧
    (∀ buf, b ∉ buf → NoPair a b (rdGo a b (some buf) l)) := by
  intro l
  induction l with
  | nil =>
    intro _
    refine ⟨trivial, fun buf hb => ?_⟩
    rw [rdGo]
    exact NoPair_of_not_mem (fun hm => hb (List.mem_reverse.mp hm))
  | cons c r ih =>
    intro hlt
    have hltr : NoLT r := fun d hd => hlt d (List.mem_cons_of_mem c hd)
    have ihr := ih hltr
    constructor
    · by_cases hc : c = a
      · rw [rdGo, if_pos hc]
        refine ihr.2 [c] ?_
        simp only [List.mem_singleton]
        exact fun he => hab (hc ▸ he.symm ▸ rfl)
      · rw [rdGo, if_neg hc]
        refine ⟨fun he => absurd he hc, ihr.1⟩
    · intro buf hb
      rw [rdGo]
      by_cases hcb : c = b
      · rw [if_pos hcb]
        exact ihr.1
      · rw [if_neg hcb]
        rw [if_neg (by simp [hlt c (List.mem_cons_self c r)])]
        refine ihr.2 (c :: buf) ?_
        intro hm
        rcases List.mem_cons.mp hm with he | hm2
        · exact hcb he.symm
        · exact hb hm2

/-- The adjacency-freedom of the tail. -/
theorem noAdj_tail {p : Char → Bool} {c : Char} {r : List Char}
    (h : NoAdj p (c :: r)) : NoAdj p r := by
  cases r with
  | nil => trivial
  | cons b r2 => exact h.2

/-- The adjacent pair at the head of an adjacency-free list. -/
theorem noAdj_head_pair {p : Char → Bool} {a c : Char} {r : List Char}
    (h : NoAdj p (a :: r)) (hc : r.head? = some c) :
    ¬(p a = true ∧ p c = true) := by
  cases r with
  | nil => cases hc
  | cons b r2 =>
    cases hc
    exact h.1

/-- Rebuilding adjacency-freedom at a cons cell. -/
theorem noAdj_cons {p : Char → Bool} {a : Char} {m : List Char}
    (hm : NoAdj p m)
    (hpair : ∀ c, m.head? = some c → ¬(p a = true ∧ p c = true)) :
    NoAdj p (a :: m) := by
  cases m with
  | nil => trivial
  | cons b r => exact ⟨hpair b rfl, hm⟩

/-- Adjacency-freedom of any suffix. -/
theorem noAdj_drop {p : Char → Bool} {l : List Char} (h : NoAdj p l) (n : Nat) :
    NoAdj p (l.drop n) := by
  induction n generalizing l with
  | zero => exact h
  | succ n ih =>
    cases l with
    | nil => trivial
    | cons c r =>
      rw [List.drop_succ_cons]
      exact ih (noAdj_tail h)

/-- Adjacency-freedom of any prefix. -/
theorem noAdj_take {p : Char → Bool} : ∀ {l : List Char}, NoAdj p l →
    ∀ n, NoAdj p (l.take n) := by
  intro l
  induction l with
  | nil => intro _ n; simp only [List.take_nil]; trivial
  | cons a r ih =>
    intro h n
    cases n with
    | zero => trivial
    | succ n =>
      rw [List.take_succ_cons]
      refine noAdj_cons (ih (noAdj_tail h) n) (fun c hc => ?_)
      rw [List.head?_take] at hc
      split at hc
      · cases hc
      · exact noAdj_head_pair h hc

/-- The head left by the run scanner in skipping state fails the test. -/
theorem crGo_true_head {p : Char → Bool} {rep : Char} : ∀ {l : List Char}
    {c : Char}, (crGo p rep true l).head? = some c → p c = false := by
  intro l
  induction l with
  | nil => intro c h; cases h
  | cons a r ih =>
    intro c h
    rw [crGo] at h
    split at h
    · exact ih h
    · cases h
      rename_i hpa
      exact Bool.not_eq_true _ ▸ hpa

/-- The head kept by the run scanner in fresh state. -/
theorem crGo_false_head {p : Char → Bool} {rep : Char} {a : Char}
    {r : List Char} (hpa : p a = false) :
    (crGo p rep false (a :: r)).head? = some a := by
  rw [crGo, if_neg (by simp [hpa])]
  rfl

/-- A positive head test together with adjacency-freedom kills the
lookahead. -/
theorem headP_false_of_noAdj {p : Char → Bool} {a : Char} {r : List Char}
    (h : NoAdj p (a :: r)) (hpa : p a = true) : headP p r = false := by
  cases r with
  | nil => rfl
  | cons b r2 =>
    cases hpb : p b with
    | false => exact hpb
    | true => exact absurd ⟨hpa, hpb⟩ h.1

/-- The run scanner is the identity on adjacency-free input. -/
theorem crGo_id {p : Char → Bool} {rep : Char} : ∀ l : List Char,
    NoAdj p l → crGo p rep false l = l := by
  intro l
  induction l with
  | nil => intro _; rfl
  | cons a r ih =>
    intro h
    by_cases hpa : p a = true
    · rw [crGo, if_neg (by simp [headP_false_of_noAdj h hpa]), ih (noAdj_tail h)]
    · rw [crGo, if_neg (by simp [hpa]), ih (noAdj_tail h)]

/-- The run scanner output is adjacency-free whenever the replacement
character itself satisfies the test. -/
theorem crGo_noAdj {p : Char → Bool} {rep : Char} :
    ∀ l : List Char, NoAdj p (crGo p rep false l) ∧ NoAdj p (crGo p rep true l) := by
  intro l
  induction l with
  | nil => exact ⟨trivial, trivial⟩
  | cons a r ih =>
    constructor
    · rw [crGo]
      by_cases hcond : (p a && headP p r) = true
      · rw [if_pos hcond]
        refine noAdj_cons ih.2 (fun c hc => ?_)
        have hcf := crGo_true_head hc
        intro hand
        rw [hcf] at hand
        exact absurd hand.2 (by simp)
      · rw [if_neg hcond]
        refine noAdj_cons ih.1 (fun c hc => ?_)
        intro hand
        by_cases hpa : p a = true
        · have hh : headP p r = false := by
            rcases Bool.and_eq_true (p a) (headP p r) |>.symm ▸ hcond with h2
            cases hph : headP p r with
            | false => rfl
            | true => exact absurd (Bool.and_eq_true _ _ ▸ ⟨hpa, hph⟩) hcond
          cases r with
          | nil => cases hc
          | cons b r2 =>
            have hpb : p b = false := hh
            rw [crGo_false_head hpb] at hc
            cases hc
            exact absurd hand.2 (by simp [hpb])
        · exact hpa hand.1
    · rw [crGo]
      split
      · exact ih.2
      · rename_i hpa
        refine noAdj_cons ih.1 (fun c hc => ?_)
        intro hand
        exact hpa hand.1

/-- Characters of the run scanner output come from the input or are the
replacement character. -/
theorem crGo_mem {p : Char → Bool} {rep : Char} : ∀ (l : List Char)
    (fl : Bool) (c : Char), c ∈ crGo p rep fl l → c ∈ l ∨ c = rep := by
  intro l
  induction l with
  | nil => intro fl c h; cases fl <;> cases h
  | cons a r ih =>
    intro fl c h
    cases fl with
    | true =>
      rw [crGo] at h
      split at h
      · rcases ih true c h with hm | he
        · exact Or.inl (List.mem_cons_of_mem a hm)
        · exact Or.inr he
      · rcases List.mem_cons.mp h with rfl | hm
        · exact Or.inl (List.mem_cons_self _ _)
        · rcases ih false c hm with hm2 | he
          · exact Or.inl (List.mem_cons_of_mem a hm2)
          · exact Or.inr he
    | false =>
      rw [crGo] at h
      split at h
      · rcases List.mem_cons.mp h with rfl | hm
        · exact Or.inr rfl
        · rcases ih true c hm with hm2 | he
          · exact Or.inl (List.mem_cons_of_mem a hm2)
          · exact Or.inr he
      · rcases List.mem_cons.mp h with rfl | hm
        · exact Or.inl (List.mem_cons_self _ _)
        · rcases ih false c hm with hm2 | he
          · exact Or.inl (List.mem_cons_of_mem a hm2)
          · exact Or.inr he

/-- The run scanner preserves pair-freedom when the replacement character
is neither delimiter. -/
theorem crGo_noPair {p : Char → Bool} {rep a b : Char}
    (hra : rep ≠ a) (hrb : rep ≠ b) : ∀ (l : List Char) (fl : Bool),
    NoPair a b l → NoPair a b (crGo p rep fl l) := by
  intro l
  induction l with
  | nil => intro fl _; cases fl <;> trivial
  | cons c r ih =>
    intro fl h
    have hmemb : ∀ fl2, b ∉ r → b ∉ crGo p rep fl2 r := by
      intro fl2 hbr hm
      rcases crGo_mem r fl2 b hm with hm2 | he
      · exact hbr hm2
      · exact hrb he.symm
    cases fl with
    | true =>
      rw [crGo]
      split
      · exact ih true h.2
      · exact ⟨fun hc => hmemb false (h.1 hc), ih false h.2⟩
    | false =>
      rw [crGo]
      split
      · exact ⟨fun hc => absurd hc hra, ih true h.2⟩
      · exact ⟨fun hc => hmemb false (h.1 hc), ih false h.2⟩


/-- The duplicate-freedom of the tail. -/
theorem noDupPunct_tail {c : Char} {r : List Char}
    (h : NoDupPunct (c :: r)) : NoDupPunct r := by
  cases r with
  | nil => trivial
  | cons b r2 => exact h.2

/-- Rebuilding duplicate-freedom at a cons cell. -/
theorem noDupPunct_cons {a : Char} {m : List Char} (hm : NoDupPunct m)
    (hpair : ∀ c, m.head? = some c → ¬(a = c ∧ isPunct a = true)) :
    NoDupPunct (a :: m) := by
  cases m with
  | nil => trivial
  | cons b r => exact ⟨hpair b rfl, hm⟩

/-- Unfolding of the punctuation scanner when the skip state differs from
the head. -/
theorem cpGo_some_cons_ne {c a : Char} {r : List Char} (h : ¬ a = c) :
    cpGo (some c) (a :: r) = cpGo none (a :: r) := by
  conv_lhs => rw [cpGo]
  conv_rhs => rw [cpGo]
  rw [if_neg (show ¬((some c : Option Char) = some a) by
        simp only [Option.some.injEq]; exact fun he => h he.symm),
      if_neg (show ¬((none : Option Char) = some a) by simp)]

/-- Characters of the punctuation scanner output come from the input. -/
theorem cpGo_mem : ∀ (l : List Char) (st : Option Char) (c : Char),
    c ∈ cpGo st l → c ∈ l := by
  intro l
  induction l with
  | nil => intro st c h; cases h
  | cons a r ih =>
    intro st c h
    rw [cpGo] at h
    split at h
    · exact List.mem_cons_of_mem a (ih _ c h)
    · split at h <;>
      · rcases List.mem_cons.mp h with rfl | hm
        · exact List.mem_cons_self _ _
        · exact List.mem_cons_of_mem a (ih _ c hm)

/-- The punctuation scanner output is a sublist of the input. -/
theorem cpGo_sublist : ∀ (l : List Char) (st : Option Char),
    List.Sublist (cpGo st l) l := by
  intro l
  induction l with
  | nil => intro st; rw [cpGo]
  | cons a r ih =>
    intro st
    rw [cpGo]
    split
    · exact (ih _).trans (List.sublist_cons_self a r)
    · split <;> exact (ih _).cons₂ a

/-- The punctuation scanner output never holds two adjacent identical
punctuation characters, and its head never equals the skip state. -/
theorem cpGo_noDup : ∀ (l : List Char),
    (∀ st, NoDupPunct (cpGo st l)) ∧
      (∀ c d, (cpGo (some c) l).head? = some d → ¬ d = c) := by
  intro l
  induction l with
  | nil =>
    refine ⟨fun st => ?_, fun c d h => ?_⟩
    · rw [cpGo]; trivial
    · rw [cpGo] at h; cases h
  | cons a r ih =>
    constructor
    · intro st
      rw [cpGo]
      split
      · exact ih.1 _
      · split
        · rename_i hpunct
          refine noDupPunct_cons (ih.1 _) (fun c hc => ?_)
          intro hand
          exact (ih.2 a c hc) hand.1.symm
        · rename_i hpunct
          refine noDupPunct_cons (ih.1 _) (fun c hc => ?_)
          intro hand
          exact hpunct hand.2
    · intro c d h
      rw [cpGo] at h
      split at h
      · rename_i hac
        simp only [Option.some.injEq] at hac
        intro hdc
        exact (ih.2 c d h) hdc
      · rename_i hac
        simp only [Option.some.injEq] at hac
        split at h <;>
        · cases h
          exact fun hdc => hac hdc.symm

/-- The punctuation scanner is the identity on duplicate-free input. -/
theorem cpGo_id : ∀ l : List Char, NoDupPunct l → cpGo none l = l := by
  intro l
  induction l with
  | nil => intro _; rfl
  | cons a r ih =>
    intro h
    rw [cpGo, if_neg (by simp)]
    have htail : cpGo none r = r := ih (noDupPunct_tail h)
    by_cases hpunct : isPunct a = true
    · rw [if_pos hpunct]
      congr 1
      cases r with
      | nil => rfl
      | cons b r2 =>
        have hba : ¬ b = a := fun he => h.1 ⟨he.symm, hpunct⟩
        rw [cpGo_some_cons_ne hba, htail]
    · rw [if_neg hpunct, htail]

/-- The punctuation scanner preserves adjacency-freedom for any test that
is false on punctuation characters. -/
theorem cpGo_noAdj {p : Char → Bool}
    (hp : ∀ c, isPunct c = true → p c = false) :
    ∀ l : List Char, NoAdj p l → ∀ st, NoAdj p (cpGo st l) := by
  intro l
  induction l with
  | nil => intro _ st; rw [cpGo]; trivial
  | cons a r ih =>
    intro h st
    rw [cpGo]
    split
    · exact ih (noAdj_tail h) _
    · split
      · rename_i hpunct
        refine noAdj_cons (ih (noAdj_tail h) _) (fun c hc => ?_)
        intro hand
        rw [hp a hpunct] at hand
        exact absurd hand.1 (by simp)
      · refine noAdj_cons (ih (noAdj_tail h) _) (fun c hc => ?_)
        cases r with
        | nil => rw [cpGo] at hc; cases hc
        | cons b r2 =>
          have hhead : (cpGo none (b :: r2)).head? = some b := by
            rw [cpGo, if_neg (by simp)]
            split <;> rfl
          rw [hhead] at hc
          cases hc
          exact noAdj_head_pair h rfl

/-- The hesitation strip returns the input or one of its prefixes. -/
theorem stripHes_sublist (l : List Char) : List.Sublist (stripHes l) l := by
  rw [stripHes]
  split
  · exact List.take_sublist _ _
  · exact List.Sublist.refl _

/-- The legendas strip returns the input or one of its prefixes. -/
theorem stripLegendas_sublist (l : List Char) :
    List.Sublist (stripLegendas l) l := by
  rw [stripLegendas]
  split
  · exact List.take_sublist _ _
  · exact List.Sublist.refl _

/-- The outro strip returns the input or one of its prefixes. -/
theorem stripOutro_sublist (l : List Char) :
    List.Sublist (stripOutro l) l := by
  rw [stripOutro]
  split
  · exact List.take_sublist _ _
  · exact List.Sublist.refl _

/-- The trim result is a sublist of the input. -/
theorem jsTrim_sublist (l : List Char) : List.Sublist (jsTrim l) l := by
  obtain ⟨m, hm⟩ := jsTrim_eq_take l
  rw [hm]
  exact (List.take_sublist _ _).trans (List.dropWhile_sublist _)

/-- Characters of a cleaned transcript come from the raw transcript or
are the two replacement characters of the collapse steps. -/
theorem cleanup_mem {s : List Char} {c : Char} (h : c ∈ cleanup s) :
    c ∈ s ∨ c = '.' ∨ c = ' ' := by
  rw [cleanup] at h
  have h1 : c ∈ jsTrim (stripOutro (stripLegendas (stripHes (removeBackslashes
      (collapseWs (collapseDots (removeParens (removeBrackets s)))))))) :=
    (cpGo_sublist _ _).mem h
  have h2 := ((((jsTrim_sublist _).trans (stripOutro_sublist _)).trans
    (stripLegendas_sublist _)).trans (stripHes_sublist _)).mem h1
  have h3 : c ∈ collapseWs (collapseDots (removeParens (removeBrackets s))) :=
    (List.filter_sublist _).mem h2
  rcases crGo_mem _ _ _ h3 with h4 | he
  · rcases crGo_mem _ _ _ h4 with h5 | he2
    · have h6 : c ∈ removeBrackets s := ((rdGo_sublist _).1).mem h5
      have h7 : c ∈ s := ((rdGo_sublist _).1).mem h6
      exact Or.inl h7
    · exact Or.inr (Or.inl he2)
  · exact Or.inr (Or.inr he)

/-- A nonempty pattern absent from l matches at no offset. -/
theorem not_sub_of_containsSub_false {pat l : List Char} (hpat : pat ≠ [])
    (h : containsSub pat l = false) : ∀ i, (l.drop i).take pat.length ≠ pat := by
  intro i he
  by_cases hi : i ≤ l.length
  · have hmem : i ∈ List.range (l.length + 1) := List.mem_range.mpr (by omega)
    have hts : containsSub pat l = true := by
      rw [containsSub, List.any_eq_true]
      exact ⟨i, hmem, decide_eq_true he⟩
    rw [h] at hts
    cases hts
  · have hd : l.drop i = [] := List.drop_eq_nil_iff.mpr (by omega)
    rw [hd, List.take_nil] at he
    exact hpat he.symm

/-- A literal whose leading fragment is absent from the folded text never
matches at any offset of the raw text. -/
theorem matchCI_none_of_no_sub {pat pat2 t : List Char} (hpat2 : pat2 ≠ [])
    (hpre : pat.take pat2.length = pat2)
    (h : containsSub pat2 (fold t) = false) (j : Nat) :
    matchCI pat (t.drop j) = none := by
  cases hm : matchCI pat (t.drop j) with
  | none => rfl
  | some r =>
    exfalso
    obtain ⟨hfold, -, -⟩ := matchCI_eq_some hm
    apply not_sub_of_containsSub_false hpat2 h j
    have hlen2 : pat2.length ≤ pat.length := by
      have := congrArg List.length hpre
      simp only [List.length_take] at this
      omega
    have hfull : ((fold t).drop j).take pat.length = pat := by
      rw [fold, ← List.map_drop, ← List.map_take, hfold]
    calc ((fold t).drop j).take pat2.length
        = (((fold t).drop j).take pat.length).take pat2.length := by
          rw [List.take_take, min_eq_left hlen2]
      _ = pat.take pat2.length := by rw [hfull]
      _ = pat2 := hpre

/-- Under absent filler triggers no filler word matches at any suffix. -/
theorem consumeFiller_nil_of_no_triggers {t : List Char}
    (h : ∀ w ∈ triggerPats, containsSub w (fold t) = false) (j : Nat) :
    consumeFiller (t.drop j) = [] := by
  have hai : containsSub (str "ai") (fold t) = false := h _ (by simp [triggerPats])
  rw [consumeFiller, List.append_eq_nil]
  constructor
  · cases hdrop : t.drop j with
    | nil => rfl
    | cons c r =>
      rw [consumeEAi]
      split
      · rw [List.filterMap_eq_nil_iff]
        intro r2 hr2
        obtain ⟨k, hk, rfl⟩ := mem_consumeWsPlus hr2
        have hr : t.drop (j + 1) = r := by
          rw [← List.drop_drop, hdrop, List.drop_succ_cons, List.drop_zero]
        rw [← hr, List.drop_drop]
        exact matchCI_none_of_no_sub (by simp [str]) (by rfl) hai _
      · rfl
  · rw [List.filterMap_eq_nil_iff]
    intro w hw
    fin_cases hw
    · exact matchCI_none_of_no_sub (by simp [str]) (List.take_length _) hai j
    · exact matchCI_none_of_no_sub (by simp [str]) (List.take_length _)
        (h _ (by simp [triggerPats])) j
    · exact matchCI_none_of_no_sub (by simp [str]) (List.take_length _)
        (h _ (by simp [triggerPats])) j
    · exact matchCI_none_of_no_sub (by simp [str]) (List.take_length _)
        (h _ (by simp [triggerPats])) j
    · exact matchCI_none_of_no_sub (by simp [str]) (List.take_length _)
        (h _ (by simp [triggerPats])) j
    · exact matchCI_none_of_no_sub (by simp [str]) (List.take_length _)
        (h _ (by simp [triggerPats])) j
    · exact matchCI_none_of_no_sub (by simp [str]) (List.take_length _)
        (h _ (by simp [triggerPats])) j

/-- Under absent filler triggers no suffix parses as hesitation groups. -/
theorem parse_false_of_no_triggers {t : List Char}
    (h : ∀ w ∈ triggerPats, containsSub w (fold t) = false) (j : Nat) :
    parseSeq (t.drop j) = false := by
  have hgroup : hesGroup (t.drop j) = [] := by
    rw [hesGroup, List.flatMap_eq_nil_iff]
    intro r1 hr1
    obtain ⟨k, hk, rfl⟩ := mem_consumeWsPlus hr1
    rw [List.drop_drop]
    rw [consumeFiller_nil_of_no_triggers h (j + (k + 1))]
    rfl
  cases hl : (t.drop j).length with
  | zero => rw [parseSeq, hl]; rfl
  | succ n => rw [parseSeq, hl, parseSeqFuel, hgroup]; rfl

/-- Under an absent legendas trigger no suffix starts the legendas rule. -/
theorem legendasTail_false_of_no_triggers {t : List Char}
    (h : ∀ w ∈ triggerPats, containsSub w (fold t) = false) (j : Nat) :
    legendasTail (t.drop j) = false := by
  have hleg : containsSub (str "legendas") (fold t) = false :=
    h _ (by simp [triggerPats])
  rw [legendasTail, List.any_eq_false]
  intro r1 hr1
  obtain ⟨k, hk, rfl⟩ := mem_consumeWsPlus hr1
  rw [List.drop_drop,
    matchCI_none_of_no_sub (by simp [str]) (List.take_length _) hleg (j + (k + 1))]
  exact Bool.false_ne_true

/-- Under absent outro triggers no suffix starts the outro rule. -/
theorem outroTail_false_of_no_triggers {t : List Char}
    (h : ∀ w ∈ triggerPats, containsSub w (fold t) = false) (j : Nat) :
    outroTail (t.drop j) = false := by
  have hob : containsSub (str "obrigad") (fold t) = false :=
    h _ (by simp [triggerPats])
  have hin : containsSub (str "inscreva-se") (fold t) = false :=
    h _ (by simp [triggerPats])
  rw [outroTail, List.any_eq_false]
  intro r1 hr1
  obtain ⟨k, hk, rfl⟩ := mem_consumeWsPlus hr1
  rw [List.drop_drop, Bool.not_eq_true, List.any_eq_false]
  intro w hw
  rcases List.mem_cons.mp hw with rfl | hw2
  · rw [matchCI_none_of_no_sub (by simp [str]) (by decide) hob (j + (k + 1))]
    exact Bool.false_ne_true
  rcases List.mem_cons.mp hw2 with rfl | hw3
  · rw [matchCI_none_of_no_sub (by simp [str]) (by decide) hob (j + (k + 1))]
    exact Bool.false_ne_true
  rcases List.mem_cons.mp hw3 with rfl | hw4
  · rw [matchCI_none_of_no_sub (by simp [str]) (by decide) hob (j + (k + 1))]
    exact Bool.false_ne_true
  rcases List.mem_cons.mp hw4 with rfl | hw5
  · rw [matchCI_none_of_no_sub (by simp [str]) (by decide) hin (j + (k + 1))]
    exact Bool.false_ne_true
  · cases hw5

/-- The hesitation strip is a prefix of its input. -/
theorem stripHes_eq_take (l : List Char) : ∃ k, stripHes l = l.take k := by
  rw [stripHes]
  split
  · exact ⟨_, rfl⟩
  · exact ⟨l.length, (List.take_length l).symm⟩

/-- The legendas strip is a prefix of its input. -/
theorem stripLegendas_eq_take (l : List Char) :
    ∃ k, stripLegendas l = l.take k := by
  rw [stripLegendas]
  split
  · exact ⟨_, rfl⟩
  · exact ⟨l.length, (List.take_length l).symm⟩

/-- The outro strip is a prefix of its input. -/
theorem stripOutro_eq_take (l : List Char) : ∃ k, stripOutro l = l.take k := by
  rw [stripOutro]
  split
  · exact ⟨_, rfl⟩
  · exact ⟨l.length, (List.take_length l).symm⟩

/-- The trim is a prefix of a suffix of its input. -/
theorem jsTrim_eq_drop_take (l : List Char) :
    ∃ d m, jsTrim l = (l.drop d).take m := by
  obtain ⟨m, hm⟩ := jsTrim_eq_take l
  rw [dropWhile_eq_drop] at hm
  exact ⟨_, m, hm⟩

/-- Whitespace characters are not terminal punctuation. -/
theorem ws_not_punct {c : Char} (h : isJsWs c = true) : isPunct c = false := by
  by_contra hp
  rw [Bool.not_eq_false, isPunct] at hp
  simp only [Bool.or_eq_true, decide_eq_true_eq] at hp
  rcases hp with ((rfl | rfl) | rfl) | rfl <;> revert h <;> decide

/-- Terminal punctuation characters are not whitespace. -/
theorem punct_not_ws {c : Char} (h : isPunct c = true) : isJsWs c = false := by
  cases hw : isJsWs c with
  | false => rfl
  | true => rw [ws_not_punct hw] at h; cases h

/-- Duplicate-freedom forbids adjacent periods. -/
theorem NoAdj_dot_of_noDup : ∀ {l : List Char}, NoDupPunct l →
    NoAdj (fun c => decide (c = '.')) l := by
  intro l
  induction l with
  | nil => intro _; trivial
  | cons a r ih =>
    intro h
    refine noAdj_cons (ih (noDupPunct_tail h)) (fun c hc => ?_)
    intro hand
    have ha : a = '.' := of_decide_eq_true hand.1
    have hcd : c = '.' := of_decide_eq_true hand.2
    cases r with
    | nil => cases hc
    | cons b r2 =>
      cases hc
      exact h.1 ⟨ha.trans hcd.symm, by rw [ha]; decide⟩

/-- The dot collapse is the identity on duplicate-free text. -/
theorem collapseDots_id {l : List Char} (h : NoDupPunct l) :
    collapseDots l = l :=
  crGo_id l (NoAdj_dot_of_noDup h)

/-- The whitespace collapse is the identity on text with no adjacent
whitespace. -/
theorem collapseWs_id {l : List Char} (h : NoAdj isJsWs l) :
    collapseWs l = l :=
  crGo_id l h

/-- The backslash removal is the identity on backslash-free text. -/
theorem removeBackslashes_id {l : List Char} (h : ∀ c ∈ l, ¬ c = '\\') :
    removeBackslashes l = l := by
  rw [removeBackslashes, List.filter_eq_self]
  intro a ha
  exact decide_eq_true (h a ha)

/-- The hesitation strip is the identity when no suffix parses. -/
theorem stripHes_id {l : List Char}
    (h : ∀ j, parseSeq (l.drop j) = false) : stripHes l = l := by
  rw [stripHes, findFirst_of_all_false (fun k => h k)]

/-- The legendas strip is the identity when no suffix matches. -/
theorem stripLegendas_id {l : List Char}
    (h : ∀ j, legendasTail (l.drop j) = false) : stripLegendas l = l := by
  rw [stripLegendas, findFirst_of_all_false (fun k => h k)]

/-- The outro strip is the identity when no suffix matches. -/
theorem stripOutro_id {l : List Char}
    (h : ∀ j, outroTail (l.drop j) = false) : stripOutro l = l := by
  rw [stripOutro, findFirst_of_all_false (fun k => h k)]

/-- C2 counterexample.  The cleanup pipeline is not idempotent: a
backslash removed in step five exposes a double space that only a second
pass collapses; a trailing-outro strip can expose a hesitation suffix
that only a second pass removes; and collapsing whitespace can fuse a
bracketed span across a former line break that only a second pass
removes. -/
theorem claim_C2_counterexample :
    cleanup (cleanup (str "a \\ b")) ≠ cleanup (str "a \\ b") ∧
    cleanup (str "a \\ b") = str "a  b" ∧
    cleanup (cleanup (str "a \\ b")) = str "a b" ∧
    cleanup (cleanup (str "foo ah legendas x")) ≠
      cleanup (str "foo ah legendas x") ∧
    cleanup (cleanup (str "[a\n\nb]")) ≠ cleanup (str "[a\n\nb]") := by
  refine ⟨by decide, by decide, by decide, by decide, by decide⟩

section

attribute [local irreducible] stripHes stripLegendas stripOutro parseSeq findFirst

/-- C2 amended.  The cleanup pipeline is idempotent on every raw
transcript that contains no backslash and no line terminator and whose
cleaned form is free of the trailing-artifact trigger words: under these
conditions a second pass changes nothing. -/
theorem claim_C2 (s : List Char)
    (hbs : ∀ c ∈ s, ¬ c = '\\')
    (hlt : NoLT s)
    (htr : noTriggers (cleanup s) = true) :
    cleanup (cleanup s) = cleanup s := by
  have hltX1 : NoLT (removeBrackets s) :=
    fun c hc => hlt c ((@rdGo_sublist '[' ']' s).1.mem hc)
  have np1 : NoPair '[' ']' (removeBrackets s) :=
    (@rdGo_noPair '[' ']' (by decide) s hlt).1
  have np1b : NoPair '[' ']' (removeParens (removeBrackets s)) :=
    noPair_sublist (@rdGo_sublist '(' ')' (removeBrackets s)).1 np1
  have np2 : NoPair '(' ')' (removeParens (removeBrackets s)) :=
    (@rdGo_noPair '(' ')' (by decide) (removeBrackets s) hltX1).1
  have np1c : NoPair '[' ']'
      (collapseDots (removeParens (removeBrackets s))) :=
    @crGo_noPair (fun c => decide (c = '.')) '.' '[' ']' (by decide) (by decide)
      _ false np1b
  have np2c : NoPair '(' ')'
      (collapseDots (removeParens (removeBrackets s))) :=
    @crGo_noPair (fun c => decide (c = '.')) '.' '(' ')' (by decide) (by decide)
      _ false np2
  have np1d : NoPair '[' ']'
      (collapseWs (collapseDots (removeParens (removeBrackets s)))) :=
    @crGo_noPair isJsWs ' ' '[' ']' (by decide) (by decide) _ false np1c
  have np2d : NoPair '(' ')'
      (collapseWs (collapseDots (removeParens (removeBrackets s)))) :=
    @crGo_noPair isJsWs ' ' '(' ')' (by decide) (by decide) _ false np2c
  have sub_t_X4 : List.Sublist (cleanup s)
      (collapseWs (collapseDots (removeParens (removeBrackets s)))) := by
    rw [cleanup]
    exact (cpGo_sublist _ _).trans ((jsTrim_sublist _).trans
      ((stripOutro_sublist _).trans ((stripLegendas_sublist _).trans
        ((stripHes_sublist _).trans (List.filter_sublist _)))))
  have hBr : NoPair '[' ']' (cleanup s) := noPair_sublist sub_t_X4 np1d
  have hPr : NoPair '(' ')' (cleanup s) := noPair_sublist sub_t_X4 np2d
  have hDup : NoDupPunct (cleanup s) := by
    rw [cleanup]
    exact (cpGo_noDup _).1 none
  have na4 : NoAdj isJsWs
      (collapseWs (collapseDots (removeParens (removeBrackets s)))) :=
    (@crGo_noAdj isJsWs ' ' (collapseDots (removeParens (removeBrackets s)))).1
  have hX4bs : ∀ c ∈ collapseWs (collapseDots (removeParens
      (removeBrackets s))), ¬ c = '\\' := by
    intro c hc
    rcases crGo_mem _ _ _ hc with h3 | he
    · rcases crGo_mem _ _ _ h3 with h2 | he2
      · have h1 : c ∈ removeBrackets s := (@rdGo_sublist '(' ')' _).1.mem h2
        exact hbs c ((@rdGo_sublist '[' ']' _).1.mem h1)
      · subst he2; decide
    · subst he; decide
  have hX5 : removeBackslashes (collapseWs (collapseDots (removeParens
      (removeBrackets s)))) =
      collapseWs (collapseDots (removeParens (removeBrackets s))) :=
    removeBackslashes_id hX4bs
  have na9 : NoAdj isJsWs (jsTrim (stripOutro (stripLegendas (stripHes
      (removeBackslashes (collapseWs (collapseDots (removeParens
        (removeBrackets s))))))))) := by
    have na5 : NoAdj isJsWs (removeBackslashes (collapseWs (collapseDots
        (removeParens (removeBrackets s))))) := by
      rw [hX5]; exact na4
    obtain ⟨k6, h6⟩ := stripHes_eq_take (removeBackslashes (collapseWs
      (collapseDots (removeParens (removeBrackets s)))))
    have na6 := h6 ▸ (noAdj_take na5 k6)
    obtain ⟨k7, h7⟩ := stripLegendas_eq_take (stripHes (removeBackslashes
      (collapseWs (collapseDots (removeParens (removeBrackets s))))))
    have na7 := h7 ▸ (noAdj_take na6 k7)
    obtain ⟨k8, h8⟩ := stripOutro_eq_take (stripLegendas (stripHes
      (removeBackslashes (collapseWs (collapseDots (removeParens
        (removeBrackets s)))))))
    have na8 := h8 ▸ (noAdj_take na7 k8)
    obtain ⟨d9, k9, h9⟩ := jsTrim_eq_drop_take (stripOutro (stripLegendas
      (stripHes (removeBackslashes (collapseWs (collapseDots (removeParens
        (removeBrackets s))))))))
    exact h9 ▸ (noAdj_take (noAdj_drop na8 d9) k9)
  have hWs : NoAdj isJsWs (cleanup s) := by
    rw [cleanup]
    exact cpGo_noAdj (fun c hc => punct_not_ws hc) _ na9 none
  have htrig : ∀ w ∈ triggerPats, containsSub w (fold (cleanup s)) = false := by
    rw [noTriggers, List.all_eq_true] at htr
    intro w hw
    have := htr w hw
    cases hcw : containsSub w (fold (cleanup s)) with
    | false => rfl
    | true => rw [hcw] at this; cases this
  have tbs : ∀ c ∈ cleanup s, ¬ c = '\\' := by
    intro c hc
    rcases cleanup_mem hc with hm | he | he
    · exact hbs c hm
    · subst he; decide
    · subst he; decide
  have h1 : removeBrackets (cleanup s) = cleanup s :=
    (@rdGo_id '[' ']' _ hBr).1
  have h2 : removeParens (cleanup s) = cleanup s :=
    (@rdGo_id '(' ')' _ hPr).1
  have h3 : collapseDots (cleanup s) = cleanup s := collapseDots_id hDup
  have h4 : collapseWs (cleanup s) = cleanup s := collapseWs_id hWs
  have h5 : removeBackslashes (cleanup s) = cleanup s :=
    removeBackslashes_id tbs
  have h6 : stripHes (cleanup s) = cleanup s :=
    stripHes_id (fun j => parse_false_of_no_triggers htrig j)
  have h7 : stripLegendas (cleanup s) = cleanup s :=
    stripLegendas_id (fun j => legendasTail_false_of_no_triggers htrig j)
  have h8 : stripOutro (cleanup s) = cleanup s :=
    stripOutro_id (fun j => outroTail_false_of_no_triggers htrig j)
  have h9 : jsTrim (cleanup s) = cleanup s := cleanup_trimmed s
  have h10 : collapsePunct (cleanup s) = cleanup s := cpGo_id _ hDup
  show collapsePunct (jsTrim (stripOutro (stripLegendas (stripHes
    (removeBackslashes (collapseWs (collapseDots (removeParens
      (removeBrackets (cleanup s)))))))))) = cleanup s
  rw [h1, h2, h3, h4, h5, h6, h7, h8, h9, h10]

end

/-- Witness for C2 at a concrete backslash-free single-line transcript. -/
theorem claim_C2_witness :
    cleanup (cleanup (str "teste de texto.")) = cleanup (str "teste de texto.") :=
  claim_C2 (str "teste de texto.") (by decide) (by decide) (by decide)

/-- C9.  The sanitization of the streaming path coincides with the
sanitization of the non-streaming path on every raw transcript: the
cleanup chain, the signature table and the minimum-length check are
duplicated verbatim in the source. -/
theorem claim_C9 (raw : List Char) :
    sanitizeTranscriptStream raw = sanitizeTranscript raw := rfl

end WhisperPro
